import Mathlib

/-!
Verification development for `fetch_bulk_JGI.py`.

The definitions below are a shallow embedding of the selection-and-retrieval
pipeline of the script: glob-based include/exclude filtering
(`matches_any_glob`, `computeSelected`), Phytozome version detection
(`collect_strings`, `build_version_haystack`, `extract_phytozome_version`),
search-result parsing into a manifest and selection maps (`parse_search`),
the latest-version-only refinement (`apply_latest_only`), the from-scratch
rebuild of the selection maps (`rebuild_selected_maps`), and the restore
poll loop of `ensure_restored` (`pollRestore`).

Python strings are modelled as Lean `String`; its JSON-like nested values
as the mutual inductive `JValue`/`JList`/`JObj` (dictionary keys are
strings, as they are in the JSON payloads the script consumes).  Python's
ASCII case mapping (`str.upper`/`str.lower`, which the script only applies
to ASCII status tokens and the ASCII marker search) is modelled by
`pyUpper`/`pyLower`.  Functions whose Python recursion is not structural
are given an explicit fuel argument together with a comment stating the
bound that makes the fuel irrelevant on every input.
-/

/-- ASCII lower-casing of one character, modelling Python `str.lower` on the
ASCII inputs the script manipulates. -/
def charLower (c : Char) : Char :=
  if 65 ≤ c.toNat ∧ c.toNat ≤ 90 then Char.ofNat (c.toNat + 32) else c

/-- ASCII upper-casing of one character, modelling Python `str.upper` on the
ASCII inputs the script manipulates. -/
def charUpper (c : Char) : Char :=
  if 97 ≤ c.toNat ∧ c.toNat ≤ 122 then Char.ofNat (c.toNat - 32) else c

/-- Model of Python `s.lower()` (ASCII range). -/
def pyLower (s : String) : String := ⟨s.data.map charLower⟩

/-- Model of Python `s.upper()` (ASCII range). -/
def pyUpper (s : String) : String := ⟨s.data.map charUpper⟩

/-- Model of Python slicing `s[:n]`: the first `n` characters of `s`. -/
def strTake (s : String) (n : Nat) : String := ⟨s.data.take n⟩

/-- Model of Python `" ".join(xs)`. -/
def joinSpace : List String → String
  | [] => ""
  | [s] => s
  | s :: rest => s ++ " " ++ joinSpace rest

/-- Does `needle` occur as a contiguous sublist of `hay`?  Models Python's
`needle in hay` substring test. -/
def listContains (needle : List Char) : List Char → Bool
  | [] => needle.isEmpty
  | c :: rest => startsWith needle (c :: rest) || listContains needle rest
where
  /-- Does the first list start the second? -/
  startsWith : List Char → List Char → Bool
    | [], _ => true
    | _ :: _, [] => false
    | p :: ps, c :: cs => p = c && startsWith ps cs

/- ---------------------------------------------------------------------
`fnmatch`-style glob matching (source: `matches_any_glob`, line 126).
Python's `fnmatch.fnmatch` compiles the glob to a regex (`*` -> `.*`,
`?` -> `.`, `[...]` character classes, everything else literal, anchored
at both ends; on POSIX `os.path.normcase` is the identity, so matching is
case sensitive).  We model the compilation (`translateGlob`) and an
anchored backtracking matcher (`tokMatchF`).
--------------------------------------------------------------------- -/

/-- One compiled glob token. -/
inductive Tok where
  | star : Tok
  | anyc : Tok
  | cls : Bool → List Char → Tok
  | lit : Char → Tok
deriving DecidableEq

/-- Scan for the closing `]` of a bracket class; returns the class body and
the remainder after the `]`, or `none` if the bracket is unterminated. -/
def spanClose : List Char → Option (List Char × List Char)
  | [] => none
  | c :: rest =>
    if c = ']' then some ([], rest)
    else
      match spanClose rest with
      | some (body, rest2) => some (c :: body, rest2)
      | none => none

/-- Parse a bracket class (the characters after `[`): an optional leading
`!` negates, a `]` directly after that is a literal member, then everything
up to the next `]` is the body.  Mirrors `fnmatch.translate`. -/
def splitClass (cs : List Char) : Option (Bool × List Char × List Char) :=
  match cs with
  | '!' :: rest =>
    (match rest with
     | ']' :: rest2 => (spanClose rest2).map (fun p => (true, ']' :: p.1, p.2))
     | _ => (spanClose rest).map (fun p => (true, p.1, p.2)))
  | ']' :: rest2 => (spanClose rest2).map (fun p => (false, ']' :: p.1, p.2))
  | _ => (spanClose cs).map (fun p => (false, p.1, p.2))

/-- Does character `c` belong to the (un-negated) bracket-class body?
Handles `a-z` ranges; a trailing or leading `-` is a literal, as in the
regex produced by `fnmatch.translate`. -/
def classMatch : List Char → Char → Bool
  | a :: '-' :: b :: rest, c =>
    (a.toNat ≤ c.toNat && c.toNat ≤ b.toNat) || classMatch rest c
  | a :: rest, c => a = c || classMatch rest c
  | [], _ => false

/-- Compile a glob pattern to tokens.  The fuel only bounds the recursion
(each step consumes at least one pattern character, so fuel
`pattern length + 1` is never exhausted). -/
def translateGlobF : Nat → List Char → List Tok
  | 0, _ => []
  | _ + 1, [] => []
  | fuel + 1, c :: ps =>
    if c = '*' then Tok.star :: translateGlobF fuel ps
    else if c = '?' then Tok.anyc :: translateGlobF fuel ps
    else if c = '[' then
      match splitClass ps with
      | some (neg, body, rest) => Tok.cls neg body :: translateGlobF fuel rest
      | none => Tok.lit '[' :: translateGlobF fuel ps
    else Tok.lit c :: translateGlobF fuel ps

/-- Compile a glob pattern to tokens. -/
def translateGlob (ps : List Char) : List Tok := translateGlobF (ps.length + 1) ps

/-- Anchored matcher for compiled glob tokens against a character list.
Each recursive call shrinks `tokens length + string length`, so the fuel
`tokens length + string length + 1` used by `fnmatch` below is never
exhausted. -/
def tokMatchF : Nat → List Tok → List Char → Bool
  | 0, _, _ => false
  | fuel + 1, ts, s =>
    match ts, s with
    | [], rest => rest.isEmpty
    | Tok.star :: ts2, rest =>
      tokMatchF fuel ts2 rest ||
        (match rest with
         | [] => false
         | _ :: rest2 => tokMatchF fuel (Tok.star :: ts2) rest2)
    | Tok.anyc :: ts2, _ :: rest2 => tokMatchF fuel ts2 rest2
    | Tok.anyc :: _, [] => false
    | Tok.cls neg body :: ts2, ch :: rest2 =>
      (classMatch body ch != neg) && tokMatchF fuel ts2 rest2
    | Tok.cls _ _ :: _, [] => false
    | Tok.lit p :: ts2, ch :: rest2 => (p = ch) && tokMatchF fuel ts2 rest2
    | Tok.lit _ :: _, [] => false

/-- Model of Python `fnmatch.fnmatch(filename, pat)` on POSIX. -/
def fnmatch (filename pat : String) : Bool :=
  let ts := translateGlob pat.data
  tokMatchF (ts.length + filename.data.length + 1) ts filename.data

/-- Source `matches_any_glob` (line 126): `any(fnmatch.fnmatch(filename, g)
for g in globs)`. -/
def matches_any_glob (filename : String) (globs : List String) : Bool :=
  globs.any (fun g => fnmatch filename g)

/-- The include/exclude selection decision of `parse_search`
(lines 229-235): select by default, restrict to files matching at least one
include glob when includes are given, then drop the file again if it
matches any exclude glob. -/
def computeSelected (fname : String) (incs excs : List String) : Bool :=
  let sel0 := if incs.isEmpty then true else matches_any_glob fname incs
  if sel0 && !excs.isEmpty && matches_any_glob fname excs then false else sel0

/- ---------------------------------------------------------------------
Version-pattern matching (source: `PHYTOZOME_VER_PATTERNS`, lines 133-137,
and `extract_phytozome_version`, lines 140-149).  The three regexes are
  phytozomev \s* ([0-9]{1,2})
  phytozome \s* sep* \s* v \s* ([0-9]{1,2})   (sep = underscore, slash, dash)
  phytozome \s* ([0-9]{1,2})
all IGNORECASE.  Because the literal parts are lower case, IGNORECASE
search is modelled by searching the lower-cased text.  The token classes
of each pattern are pairwise disjoint, so the greedy left-to-right matcher
below agrees with the backtracking regex engine, and `searchPat` iterating
over start positions gives `re.search`'s leftmost-match semantics.
--------------------------------------------------------------------- -/

/-- ASCII digit test, the `[0-9]` character class. -/
def isDig (c : Char) : Bool := 48 ≤ c.toNat && c.toNat ≤ 57

/-- Numeric value of an ASCII digit. -/
def digVal (c : Char) : Nat := c.toNat - 48

/-- Whitespace class `\s` (the ASCII part Python's `re` recognises). -/
def isPySpace (c : Char) : Bool :=
  c = ' ' || c = '\t' || c = '\n' || c = '\r' || c.toNat = 11 || c.toNat = 12

/-- The separator class (underscore, slash, dash) of the second pattern. -/
def isSep (c : Char) : Bool := c = '_' || c = '/' || c = '-'

/-- Strip an exact literal from the front of a character list. -/
def stripLit : List Char → List Char → Option (List Char)
  | [], cs => some cs
  | _ :: _, [] => none
  | p :: ps, c :: cs => if p = c then stripLit ps cs else none

/-- The greedy capture `([0-9]{1,2})`: one digit, two if a second follows. -/
def capture12 : List Char → Option Nat
  | [] => none
  | c :: rest =>
    if isDig c then
      match rest with
      | d :: _ => if isDig d then some (digVal c * 10 + digVal d) else some (digVal c)
      | [] => some (digVal c)
    else none

/-- Attempt pattern 1, `phytozomev\s*([0-9]{1,2})`, at the current position. -/
def tryPat1 (cs : List Char) : Option Nat :=
  match stripLit ("phytozomev").data cs with
  | none => none
  | some r => capture12 (r.dropWhile isPySpace)

/-- Attempt pattern 2 (marker, optional whitespace, optional separators,
optional whitespace, `v`, optional whitespace, 1-2 digits) at the current
position. -/
def tryPat2 (cs : List Char) : Option Nat :=
  match stripLit ("phytozome").data cs with
  | none => none
  | some r =>
    match ((r.dropWhile isPySpace).dropWhile isSep).dropWhile isPySpace with
    | 'v' :: r2 => capture12 (r2.dropWhile isPySpace)
    | _ => none

/-- Attempt pattern 3, `phytozome\s*([0-9]{1,2})`, at the current position. -/
def tryPat3 (cs : List Char) : Option Nat :=
  match stripLit ("phytozome").data cs with
  | none => none
  | some r => capture12 (r.dropWhile isPySpace)

/-- `re.search` semantics: try the pattern at every position, left to
right, returning the first success. -/
def searchPat (pat : List Char → Option Nat) : List Char → Option Nat
  | [] => pat []
  | c :: cs =>
    match pat (c :: cs) with
    | some n => some n
    | none => searchPat pat cs

/-- Source `PHYTOZOME_VER_PATTERNS` (lines 133-137), in order. -/
def PHYTOZOME_VER_PATTERNS : List (List Char → Option Nat) :=
  [tryPat1, tryPat2, tryPat3]

/-- Source `extract_phytozome_version` (lines 140-149): try the patterns in
order against the text and return the first captured integer, `none` when
no pattern matches.  (The `int(...)` conversion of a 1-2 digit capture
cannot fail, so the `except ValueError` branch is unreachable.) -/
def extract_phytozome_version (text : String) : Option Nat :=
  let s := (pyLower text).data
  PHYTOZOME_VER_PATTERNS.findSome? (fun pat => searchPat pat s)

/- ---------------------------------------------------------------------
JSON-like values.  `JList`/`JObj` are unfolded list types so that all the
recursions below are structural (and hence kernel-executable).  Dictionary
keys are strings, matching the JSON payloads the script consumes (the
`isinstance(k, str)` guard of `collect_strings` is therefore always true).
--------------------------------------------------------------------- -/

mutual

inductive JValue where
  | str : String → JValue
  | num : Int → JValue
  | boolean : Bool → JValue
  | null : JValue
  | arr : JList → JValue
  | obj : JObj → JValue

inductive JList where
  | nil : JList
  | cons : JValue → JList → JList

inductive JObj where
  | nil : JObj
  | cons : String → JValue → JObj → JObj

end

/-- First value stored under `key`, if any (Python `d.get(key)`; dict keys
are unique in a parsed JSON object, so first-match lookup is faithful). -/
def jObjFind : JObj → String → Option JValue
  | JObj.nil, _ => none
  | JObj.cons k v rest, key => if k = key then some v else jObjFind rest key

/-- Python `(d.get(key) or "")` for string-valued fields: the stored string
when the value is a string, `""` when the key is absent or null-ish.
(A non-string truthy value would make the script itself crash later, so
such payloads are outside the model.) -/
def jStr (v : JValue) (key : String) : String :=
  match v with
  | JValue.obj fs =>
    match jObjFind fs key with
    | some (JValue.str s) => s
    | _ => ""
  | _ => ""

/-- Convert the unfolded array type to a Lean list. -/
def jArrList : JList → List JValue
  | JList.nil => []
  | JList.cons v rest => v :: jArrList rest

/-- Python `(d.get(key, []) or [])` for list-valued fields. -/
def jArr (v : JValue) (key : String) : List JValue :=
  match v with
  | JValue.obj fs =>
    match jObjFind fs key with
    | some (JValue.arr xs) => jArrList xs
    | _ => []
  | _ => []

mutual

/-- Source `collect_strings` (lines 152-177): depth-first harvest of the
string values (and dictionary keys) of a nested structure into `out`,
stopping as soon as `out` holds `maxS` strings. -/
def collect_strings (maxS : Nat) (v : JValue) (out : List String) : List String :=
  if maxS ≤ out.length then out
  else
    match v with
    | JValue.str s => out ++ [s]
    | JValue.obj fs => collectObj maxS fs out
    | JValue.arr xs => collectArr maxS xs out
    | _ => out

/-- The dictionary loop of `collect_strings`: per item, stop when the cap
is reached, append the key, then recurse into the value. -/
def collectObj (maxS : Nat) (fs : JObj) (out : List String) : List String :=
  match fs with
  | JObj.nil => out
  | JObj.cons k v rest =>
    if maxS ≤ out.length then out
    else collectObj maxS rest (collect_strings maxS v (out ++ [k]))

/-- The list loop of `collect_strings`. -/
def collectArr (maxS : Nat) (xs : JList) (out : List String) : List String :=
  match xs with
  | JList.nil => out
  | JList.cons v rest =>
    if maxS ≤ out.length then out
    else collectArr maxS rest (collect_strings maxS v out)

end

/-- Does the string contain the marker, i.e. Python
`"phytozome" in s.lower()`? -/
def hasMarker (s : String) : Bool :=
  listContains ("phytozome").data (pyLower s).data

/-- The seed of the harvest in `build_version_haystack` (lines 187-190):
the display name first, when present. -/
def seedStrings (file_obj : JValue) : List String :=
  let fname := jStr file_obj ("file_name")
  if fname = "" then [] else [fname]

/-- All strings harvested from a file object (seed plus recursive
collection with the 2000-string cap), as in lines 187-192. -/
def harvestStrings (file_obj : JValue) : List String :=
  collect_strings 2000 file_obj (seedStrings file_obj)

/-- The marker-bearing subset of the harvest (line 195). -/
def markerStrings (file_obj : JValue) : List String :=
  (harvestStrings file_obj).filter hasMarker

/-- Source `build_version_haystack` (lines 180-202): prefer the
marker-bearing strings when any exist, join with single spaces, truncate to
200000 characters. -/
def build_version_haystack (file_obj : JValue) : String :=
  let strings := harvestStrings file_obj
  let phyto := strings.filter hasMarker
  let chosen := if phyto = [] then strings else phyto
  strTake (joinSpace chosen) 200000

/-- The per-file detection used by `parse_search` (lines 238-239). -/
def detect_version (file_obj : JValue) : Option Nat :=
  extract_phytozome_version (build_version_haystack file_obj)

/- ---------------------------------------------------------------------
Manifest rows and selection maps (source: `parse_search`, lines 205-271,
`apply_latest_only`, lines 274-303, `rebuild_selected_maps`,
lines 305-329).  Python's insertion-ordered dictionaries mapping
`dataset_id` to a list of `file_id`s are modelled as association lists.
--------------------------------------------------------------------- -/

/-- One manifest row (the dict built at lines 241-250).  The version column
is `Option Nat`: the Python code stores `""` for "not detected" and an
integer otherwise, and only ever tests that column for emptiness or
converts it back with `int`. -/
structure Row where
  dataset_id : String
  file_id : String
  file_name : String
  file_status : String
  phytozome_version : Option Nat
  selected : Bool
deriving DecidableEq

/-- Insertion-ordered dataset-to-file-ids map. -/
abbrev SMap := List (String × List String)

/-- Python `d.setdefault(k, []).append(v)` on an insertion-ordered dict. -/
def mapAppend (m : SMap) (k v : String) : SMap :=
  match m with
  | [] => [(k, [v])]
  | (k2, vs) :: rest =>
    if k2 = k then (k2, vs ++ [v]) :: rest else (k2, vs) :: mapAppend rest k v

/-- The `dedup` helper of `parse_search`/`rebuild_selected_maps`
(lines 260-267 and 318-325): keep the first occurrence of each element.
`seen` is the membership set accumulated so far. -/
def dedupAux (seen : List String) : List String → List String
  | [] => []
  | x :: rest =>
    if x ∈ seen then dedupAux seen rest else x :: dedupAux (x :: seen) rest

/-- Order-preserving de-duplication. -/
def dedup (xs : List String) : List String := dedupAux [] xs

/-- Apply `dedup` to every value list of a map (lines 269-270, 327-328). -/
def dedupMap (m : SMap) : SMap := m.map (fun p => (p.1, dedup p.2))

/-- The accumulators of `parse_search`: manifest rows, selected-ids map,
selected-purged map. -/
structure ParseState where
  rows : List Row
  sel : SMap
  pur : SMap
deriving DecidableEq

/-- The empty accumulators (lines 210-212). -/
def emptyState : ParseState := ⟨[], [], []⟩

/-- The body of the inner file loop of `parse_search` (lines 221-257):
drop entries with an empty id or name, compute selection and version,
append the manifest row, and record selected (and selected-purged) ids. -/
def processFile (incs excs : List String) (ds : String) (st : ParseState)
    (f : JValue) : ParseState :=
  let fid := jStr f ("_id")
  let fname := jStr f ("file_name")
  let status := pyUpper (jStr f ("file_status"))
  if fid = "" ∨ fname = "" then st
  else
    let selected := computeSelected fname incs excs
    let pver := detect_version f
    let row : Row := ⟨ds, fid, fname, status, pver, selected⟩
    if selected then
      ⟨st.rows ++ [row], mapAppend st.sel ds fid,
        if status = "PURGED" then mapAppend st.pur ds fid else st.pur⟩
    else ⟨st.rows ++ [row], st.sel, st.pur⟩

/-- The organism loop of `parse_search` (lines 215-220): skip organisms
without an id, then fold over their files. -/
def processOrg (incs excs : List String) (st : ParseState) (org : JValue) :
    ParseState :=
  let ds := jStr org ("id")
  if ds = "" then st
  else (jArr org ("files")).foldl (processFile incs excs ds) st

/-- Source `parse_search` (lines 205-271): fold over the organisms, then
de-duplicate the value lists of both maps. -/
def parse_search (search_json : JValue) (incs excs : List String) :
    List Row × SMap × SMap :=
  let st := (jArr search_json ("organisms")).foldl (processOrg incs excs) emptyState
  (st.rows, dedupMap st.sel, dedupMap st.pur)

/-- The detected versions of the currently selected rows (the list
comprehension at lines 284-288: a selected row contributes iff its version
column is non-empty). -/
def selVers (rows : List Row) : List Nat :=
  rows.filterMap (fun r => if r.selected then r.phytozome_version else none)

/-- Python `max` over a non-empty list of naturals, written as the fold it
performs. -/
def foldMax (vs : List Nat) : Nat := vs.foldl Nat.max 0

/-- Source `apply_latest_only` (lines 274-303): when some selected row has
a detected version, deselect every selected row whose version is missing
or differs from the maximum; otherwise leave the manifest unchanged. -/
def apply_latest_only (rows : List Row) : List Row :=
  let vs := selVers rows
  if vs = [] then rows
  else
    let max_ver := foldMax vs
    rows.map (fun r =>
      if !r.selected then r
      else
        match r.phytozome_version with
        | none => { r with selected := false }
        | some v => if v ≠ max_ver then { r with selected := false } else r)

/-- The caller-side no-effect check of `main` (lines 492-504): after the
refinement, the warning is printed iff no selected row has a detected
version. -/
def latestOnlyNoEffect (rows : List Row) : Bool :=
  (selVers (apply_latest_only rows)).isEmpty

/-- One row's contribution to the rebuilt maps (`rebuild_selected_maps`,
lines 309-316). -/
def rebuildStep (mp : SMap × SMap) (r : Row) : SMap × SMap :=
  if r.selected then
    (mapAppend mp.1 r.dataset_id r.file_id,
      if r.file_status = "PURGED" then mapAppend mp.2 r.dataset_id r.file_id
      else mp.2)
  else mp

/-- Source `rebuild_selected_maps` (lines 305-329): rebuild both selection
maps from scratch from the manifest rows. -/
def rebuild_selected_maps (rows : List Row) : SMap × SMap :=
  let mp := rows.foldl rebuildStep ([], [])
  (dedupMap mp.1, dedupMap mp.2)

/- ---------------------------------------------------------------------
Restore poll loop (source: `ensure_restored`, lines 374-389).  `statusAt i`
is the raw status token returned by the i-th status poll; the code
upper-cases it, returns on READY, raises on EXPIRED, otherwise sleeps
`pollS`, accumulates the wait, and raises a timeout once the accumulated
wait reaches `maxW`.
--------------------------------------------------------------------- -/

/-- Terminal outcome of the poll loop: `ready` models the normal return,
`expired` the `RuntimeError` for an expired restore, `timedOut` the
`TimeoutError`. -/
inductive RestoreOutcome where
  | ready : RestoreOutcome
  | expired : RestoreOutcome
  | timedOut : RestoreOutcome
deriving DecidableEq

/-- The poll loop.  Returns the outcome, the number of status polls
performed, and the accumulated wait in seconds.  `i` is the index of the
next poll and `waited` the wait accumulated so far.  The fuel only bounds
the recursion: every non-terminal iteration with `pollS ≥ 1` strictly
increases `waited`, which is capped by `maxW`, so any fuel of at least
`maxW` (plus one poll) makes the result independent of it; with
`pollS = 0` the Python loop genuinely never times out. -/
def pollRestore (statusAt : Nat → String) (pollS maxW : Nat) :
    Nat → Nat → Nat → Option (RestoreOutcome × Nat × Nat)
  | 0, _, _ => none
  | fuel + 1, i, waited =>
    let st := pyUpper (statusAt i)
    if st = "READY" then some (RestoreOutcome.ready, i + 1, waited)
    else if st = "EXPIRED" then some (RestoreOutcome.expired, i + 1, waited)
    else
      if maxW ≤ waited + pollS then some (RestoreOutcome.timedOut, i + 1, waited + pollS)
      else pollRestore statusAt pollS maxW fuel (i + 1) (waited + pollS)

/-- The poll loop as entered by `ensure_restored` (line 374): `waited = 0`,
first poll index 0. -/
def ensure_restored_poll (statusAt : Nat → String) (pollS maxW fuel : Nat) :
    Option (RestoreOutcome × Nat × Nat) :=
  pollRestore statusAt pollS maxW fuel 0 0

/- ---------------------------------------------------------------------
Concrete example inputs used by the claim theorems and their witnesses.
--------------------------------------------------------------------- -/

/-- A file object carrying the version marker in a nested `path` field and
an unrelated numeric string in an `md5` field. -/
def exMarker : JValue :=
  JValue.obj (JObj.cons ("file_name") (JValue.str ("x.gff3.gz"))
    (JObj.cons ("path") (JValue.str ("Phytozome/PhytozomeV13/x.gff3.gz"))
      (JObj.cons ("md5") (JValue.str ("4242")) JObj.nil)))

/-- Selected rows with detected versions 11, 12, 13 and one selected row
with no detected version (the latest-only strictness example). -/
def exRows : List Row :=
  [⟨"d", "f11", "a", "LIVE", some 11, true⟩,
   ⟨"d", "f12", "b", "LIVE", some 12, true⟩,
   ⟨"d", "f13", "c", "LIVE", some 13, true⟩,
   ⟨"d", "fnn", "e", "LIVE", none, true⟩]

/-- Selected rows none of which has a detected version. -/
def exRowsNone : List Row :=
  [⟨"d", "f1", "a", "LIVE", none, true⟩, ⟨"d", "f2", "b", "PURGED", none, true⟩]

/-- A file entry lacking the `_id` field. -/
def exDropF : JValue :=
  JValue.obj (JObj.cons ("file_name") (JValue.str ("x")) JObj.nil)

/-- A file entry whose raw `file_status` is the mixed-case `Purged`. -/
def exC10F : JValue :=
  JValue.obj (JObj.cons ("_id") (JValue.str ("f1"))
    (JObj.cons ("file_name") (JValue.str ("x.gff3.gz"))
      (JObj.cons ("file_status") (JValue.str ("Purged")) JObj.nil)))

/-- Status sequence PENDING, PENDING, READY. -/
def exStatusA : Nat → String := fun i => if i < 2 then ("PENDING") else ("READY")

/-- Status sequence pending, Expired, pending, ... (terminal at poll 1). -/
def exStatusB : Nat → String := fun i => if i = 1 then ("Expired") else ("pending")

/-- A status sequence that never reaches a terminal state. -/
def exStatusC : Nat → String := fun _ => ("pending")

/- ---------------------------------------------------------------------
Helper lemmas.
--------------------------------------------------------------------- -/

theorem dedupAux_sublist (xs : List String) : ∀ seen, (dedupAux seen xs).Sublist xs := by
  induction xs with
  | nil => intro seen; simp [dedupAux]
  | cons x rest ih =>
    intro seen
    unfold dedupAux
    by_cases hx : x ∈ seen
    · rw [if_pos hx]; exact (ih seen).trans (List.sublist_cons_self x rest)
    · rw [if_neg hx]; exact (ih (x :: seen)).cons₂ x

theorem mem_dedupAux (xs : List String) :
    ∀ seen x, x ∈ dedupAux seen xs ↔ x ∈ xs ∧ x ∉ seen := by
  induction xs with
  | nil => intro seen x; simp [dedupAux]
  | cons y rest ih =>
    intro seen x
    unfold dedupAux
    by_cases hy : y ∈ seen
    · rw [if_pos hy, ih]
      constructor
      · rintro ⟨h1, h2⟩; exact ⟨List.mem_cons_of_mem y h1, h2⟩
      · rintro ⟨h1, h2⟩
        rcases List.mem_cons.mp h1 with h | h
        · subst h; exact absurd hy h2
        · exact ⟨h, h2⟩
    · rw [if_neg hy]
      constructor
      · intro h
        rcases List.mem_cons.mp h with h | h
        · subst h; exact ⟨List.mem_cons_self x rest, hy⟩
        · rcases (ih (y :: seen) x).mp h with ⟨h1, h2⟩
          exact ⟨List.mem_cons_of_mem y h1, fun hc => h2 (List.mem_cons_of_mem y hc)⟩
      · rintro ⟨h1, h2⟩
        rcases List.mem_cons.mp h1 with h | h
        · subst h; exact List.mem_cons_self x _
        · by_cases hxy : x = y
          · subst hxy; exact List.mem_cons_self x _
          · exact List.mem_cons_of_mem y ((ih (y :: seen) x).mpr
              ⟨h, fun hc => by
                rcases List.mem_cons.mp hc with hcc | hcc
                · exact hxy hcc
                · exact h2 hcc⟩)

theorem dedupAux_nodup (xs : List String) : ∀ seen, (dedupAux seen xs).Nodup := by
  induction xs with
  | nil => intro seen; simp [dedupAux]
  | cons x rest ih =>
    intro seen
    unfold dedupAux
    by_cases hx : x ∈ seen
    · rw [if_pos hx]; exact ih seen
    · rw [if_neg hx]
      refine List.nodup_cons.mpr ⟨?_, ih (x :: seen)⟩
      intro hc
      exact ((mem_dedupAux rest (x :: seen) x).mp hc).2 (List.mem_cons_self x seen)

theorem dedupAux_eq_self (xs : List String) :
    ∀ seen, xs.Nodup → (∀ x ∈ xs, x ∉ seen) → dedupAux seen xs = xs := by
  induction xs with
  | nil => intro seen _ _; rfl
  | cons x rest ih =>
    intro seen hnd hdisj
    unfold dedupAux
    rw [if_neg (hdisj x (List.mem_cons_self x rest))]
    congr 1
    refine ih (x :: seen) (List.nodup_cons.mp hnd).2 ?_
    intro y hy hc
    rcases List.mem_cons.mp hc with h | h
    · exact (List.nodup_cons.mp hnd).1 (h ▸ hy)
    · exact hdisj y (List.mem_cons_of_mem x hy) h

theorem mem_dedup (xs : List String) (x : String) : x ∈ dedup xs ↔ x ∈ xs := by
  unfold dedup
  rw [mem_dedupAux]
  simp

theorem dedup_nodup (xs : List String) : (dedup xs).Nodup := dedupAux_nodup xs []

theorem dedupMap_nodup (m : SMap) (p : String × List String) (h : p ∈ dedupMap m) :
    p.2.Nodup := by
  unfold dedupMap at h
  rcases List.mem_map.mp h with ⟨q, _, hq⟩
  rw [← hq]
  exact dedup_nodup q.2

theorem mapAppend_vals (k v : String) :
    ∀ (m : SMap) (p : String × List String) (x : String),
      p ∈ mapAppend m k v → x ∈ p.2 → x = v ∨ ∃ q ∈ m, x ∈ q.2 := by
  intro m
  induction m with
  | nil =>
    intro p x hp hx
    unfold mapAppend at hp
    rcases List.mem_singleton.mp hp with rfl
    rcases List.mem_singleton.mp hx with rfl
    exact Or.inl rfl
  | cons hd tl ih =>
    intro p x hp hx
    obtain ⟨k2, vs⟩ := hd
    unfold mapAppend at hp
    by_cases hk : k2 = k
    · rw [if_pos hk] at hp
      rcases List.mem_cons.mp hp with h | h
      · subst h
        rcases List.mem_append.mp hx with h | h
        · exact Or.inr ⟨(k2, vs), List.mem_cons_self _ _, h⟩
        · exact Or.inl (List.mem_singleton.mp h)
      · exact Or.inr ⟨p, List.mem_cons_of_mem _ h, hx⟩
    · rw [if_neg hk] at hp
      rcases List.mem_cons.mp hp with h | h
      · subst h; exact Or.inr ⟨(k2, vs), List.mem_cons_self _ _, hx⟩
      · rcases ih p x h hx with h2 | ⟨q, hq1, hq2⟩
        · exact Or.inl h2
        · exact Or.inr ⟨q, List.mem_cons_of_mem _ hq1, hq2⟩

theorem computeSelected_eq (fname : String) (incs excs : List String) :
    computeSelected fname incs excs =
      ((incs.isEmpty || matches_any_glob fname incs) &&
        !(!excs.isEmpty && matches_any_glob fname excs)) := by
  unfold computeSelected
  cases h1 : incs.isEmpty <;> cases h3 : excs.isEmpty <;>
    cases h2 : matches_any_glob fname incs <;>
      cases h4 : matches_any_glob fname excs <;> simp [h1, h2, h3, h4]

/- ---------------------------------------------------------------------
Claim theorems.
--------------------------------------------------------------------- -/

/-- C3: with a non-empty include list a record is selected iff its file
name matches at least one include glob (no include globs select
everything), and a selected record matching any exclude glob of a
non-empty exclude list is deselected — exclusion overrides inclusion. -/
theorem claim_C3 (fname : String) (incs excs : List String) :
    (computeSelected fname incs excs = true ↔
      ((incs = [] ∨ matches_any_glob fname incs = true) ∧
        ¬(excs ≠ [] ∧ matches_any_glob fname excs = true)))
    ∧ (∀ gs : List String,
        matches_any_glob fname gs = true ↔ ∃ g ∈ gs, fnmatch fname g = true)
    ∧ (excs ≠ [] → matches_any_glob fname excs = true →
        computeSelected fname incs excs = false) := by
  have e1 : incs.isEmpty = true ↔ incs = [] := by cases incs <;> simp
  have e2 : excs.isEmpty = true ↔ excs = [] := by cases excs <;> simp
  refine ⟨?_, ?_, ?_⟩
  · rw [computeSelected_eq]
    cases h1 : incs.isEmpty <;> cases h2 : matches_any_glob fname incs <;>
      cases h3 : excs.isEmpty <;> cases h4 : matches_any_glob fname excs <;>
        simp_all
  · intro gs
    simp [matches_any_glob, List.any_eq_true]
  · intro h1 h2
    have h3 : excs.isEmpty = false := by
      cases excs with
      | nil => exact absurd rfl h1
      | cons _ _ => rfl
    rw [computeSelected_eq, h2, h3]
    simp

/-- C3 witness: the spec's include/exclude precedence example, with the
exclude glob equal to the include glob in the second half. -/
theorem claim_C3_witness :
    computeSelected ("a.gff3.gz") [("*.gff3.gz")] [("*.gff3.gz")] = false ∧
      computeSelected ("a.gff3.gz") [("*.gff3.gz")] [("*masked*")] = true := by
  constructor
  · exact (claim_C3 ("a.gff3.gz") [("*.gff3.gz")] [("*.gff3.gz")]).2.2
      (by decide) (by decide)
  · exact (claim_C3 ("a.gff3.gz") [("*.gff3.gz")] [("*masked*")]).1.mpr
      (by exact ⟨Or.inr (by decide), by rintro ⟨-, hc⟩; revert hc; decide⟩)

theorem isDig_bound (c : Char) (h : isDig c = true) :
    48 ≤ c.toNat ∧ c.toNat ≤ 57 := by
  unfold isDig at h
  simpa [Bool.and_eq_true, decide_eq_true_eq] using h

theorem capture12_le (cs : List Char) (n : Nat) (h : capture12 cs = some n) : n ≤ 99 := by
  cases cs with
  | nil => simp [capture12] at h
  | cons c rest =>
    by_cases hc : isDig c = true
    · obtain ⟨h1, h2⟩ := isDig_bound c hc
      cases rest with
      | nil =>
        simp only [capture12, hc, if_true] at h
        have hn := Option.some.inj h
        unfold digVal at hn
        omega
      | cons d rest2 =>
        by_cases hd : isDig d = true
        · obtain ⟨h3, h4⟩ := isDig_bound d hd
          simp only [capture12, hc, hd, if_true] at h
          have hn := Option.some.inj h
          unfold digVal at hn
          omega
        · simp only [capture12, hc, hd, if_true, if_false] at h
          have hn := Option.some.inj h
          unfold digVal at hn
          omega
    · simp [capture12, hc] at h

theorem tryPat1_le (cs : List Char) (n : Nat) (h : tryPat1 cs = some n) : n ≤ 99 := by
  unfold tryPat1 at h
  cases hs : stripLit ("phytozomev").data cs with
  | none => rw [hs] at h; exact absurd h (by simp)
  | some r => rw [hs] at h; exact capture12_le _ n h

theorem tryPat2_le (cs : List Char) (n : Nat) (h : tryPat2 cs = some n) : n ≤ 99 := by
  unfold tryPat2 at h
  split at h
  · exact absurd h (by simp)
  · split at h
    · exact capture12_le _ n h
    · exact absurd h (by simp)

theorem tryPat3_le (cs : List Char) (n : Nat) (h : tryPat3 cs = some n) : n ≤ 99 := by
  unfold tryPat3 at h
  cases hs : stripLit ("phytozome").data cs with
  | none => rw [hs] at h; exact absurd h (by simp)
  | some r => rw [hs] at h; exact capture12_le _ n h

theorem searchPat_le (pat : List Char → Option Nat)
    (hp : ∀ cs n, pat cs = some n → n ≤ 99) :
    ∀ cs n, searchPat pat cs = some n → n ≤ 99 := by
  intro cs
  induction cs with
  | nil => intro n h; exact hp [] n (by simpa [searchPat] using h)
  | cons c rest ih =>
    intro n h
    unfold searchPat at h
    cases hm : pat (c :: rest) with
    | some m => rw [hm] at h; exact hp _ n (hm.trans (by simpa using h))
    | none => rw [hm] at h; exact ih n h

/-- C5: the ordered pattern list is tried in order and the detector returns
the first matching pattern's captured integer; only 1-2 digit versions are
recognised (the result is at most 99); matching is case-insensitive (the
result only depends on the lower-cased text); and when no pattern matches
the detector returns `none` — an absent value, not zero and not an error. -/
theorem claim_C5 (s : String) :
    (extract_phytozome_version s =
      Option.orElse (searchPat tryPat1 (pyLower s).data)
        (fun _ => Option.orElse (searchPat tryPat2 (pyLower s).data)
          (fun _ => searchPat tryPat3 (pyLower s).data)))
    ∧ (∀ n, extract_phytozome_version s = some n → n ≤ 99)
    ∧ (∀ t, pyLower t = pyLower s →
        extract_phytozome_version t = extract_phytozome_version s)
    ∧ (searchPat tryPat1 (pyLower s).data = none →
        searchPat tryPat2 (pyLower s).data = none →
        searchPat tryPat3 (pyLower s).data = none →
        extract_phytozome_version s = none) := by
  have h1 : extract_phytozome_version s =
      Option.orElse (searchPat tryPat1 (pyLower s).data)
        (fun _ => Option.orElse (searchPat tryPat2 (pyLower s).data)
          (fun _ => searchPat tryPat3 (pyLower s).data)) := by
    unfold extract_phytozome_version PHYTOZOME_VER_PATTERNS
    cases e1 : searchPat tryPat1 (pyLower s).data <;>
      cases e2 : searchPat tryPat2 (pyLower s).data <;>
        cases e3 : searchPat tryPat3 (pyLower s).data <;>
          simp [List.findSome?, e1, e2, e3, Option.orElse]
  refine ⟨h1, ?_, ?_, ?_⟩
  · intro n hn
    rw [h1] at hn
    cases e1 : searchPat tryPat1 (pyLower s).data with
    | some m =>
      rw [e1] at hn
      obtain rfl := Option.some.inj hn
      exact searchPat_le tryPat1 tryPat1_le _ m e1
    | none =>
      rw [e1] at hn
      cases e2 : searchPat tryPat2 (pyLower s).data with
      | some m =>
        rw [e2] at hn
        obtain rfl := Option.some.inj hn
        exact searchPat_le tryPat2 tryPat2_le _ m e2
      | none =>
        rw [e2] at hn
        exact searchPat_le tryPat3 tryPat3_le _ n hn
  · intro t ht
    unfold extract_phytozome_version
    rw [ht]
  · intro a b c
    rw [h1, a, b, c]
    rfl

/-- C5 witness: a text without any version marker yields `none` through the
no-match clause, and a mixed-case marker detects like its lower-cased
form. -/
theorem claim_C5_witness :
    extract_phytozome_version ("nothing 123 here") = none ∧
      extract_phytozome_version ("PhytozomeV13") =
        extract_phytozome_version ("phytozomev13") := by
  constructor
  · exact (claim_C5 ("nothing 123 here")).2.2.2 (by decide) (by decide) (by decide)
  · exact (claim_C5 ("phytozomev13")).2.2.1 ("PhytozomeV13") (by decide)

/-- C9: `dedup` keeps each identifier exactly once (no duplicates), in
first-seen order (the result is a subsequence with the same members), it
leaves an already-deduplicated list unchanged, and every value list
produced by the selection-map builder is duplicate-free. -/
theorem claim_C9 (xs : List String) (rows : List Row) :
    (dedup xs).Nodup
    ∧ (dedup xs).Sublist xs
    ∧ (∀ x, x ∈ dedup xs ↔ x ∈ xs)
    ∧ (xs.Nodup → dedup xs = xs)
    ∧ (∀ p ∈ (rebuild_selected_maps rows).1, p.2.Nodup)
    ∧ (∀ p ∈ (rebuild_selected_maps rows).2, p.2.Nodup) := by
  refine ⟨dedup_nodup xs, dedupAux_sublist xs [], mem_dedup xs, ?_, ?_, ?_⟩
  · intro hnd
    exact dedupAux_eq_self xs [] hnd (by simp)
  · intro p hp
    exact dedupMap_nodup _ p hp
  · intro p hp
    exact dedupMap_nodup _ p hp

/-- C9 witness: `dedup` on a duplicate-free list is the identity. -/
theorem claim_C9_witness : dedup [("a"), ("b")] = [("a"), ("b")] :=
  (claim_C9 [("a"), ("b")] []).2.2.2.1 (by decide)

mutual

theorem collect_strings_le (maxS : Nat) (v : JValue) (out : List String)
    (h : out.length ≤ maxS) : (collect_strings maxS v out).length ≤ maxS := by
  unfold collect_strings
  by_cases hc : maxS ≤ out.length
  · rw [if_pos hc]; exact h
  · rw [if_neg hc]
    cases v with
    | str s => simp only [List.length_append, List.length_cons, List.length_nil]; omega
    | num n => exact h
    | boolean b => exact h
    | null => exact h
    | arr xs => exact collectArr_le maxS xs out h
    | obj fs => exact collectObj_le maxS fs out h

theorem collectObj_le (maxS : Nat) (fs : JObj) (out : List String)
    (h : out.length ≤ maxS) : (collectObj maxS fs out).length ≤ maxS := by
  cases fs with
  | nil => exact h
  | cons k v rest =>
    simp only [collectObj]
    by_cases hc : maxS ≤ out.length
    · rw [if_pos hc]; exact h
    · rw [if_neg hc]
      exact collectObj_le maxS rest _
        (collect_strings_le maxS v (out ++ [k]) (by simp; omega))

theorem collectArr_le (maxS : Nat) (xs : JList) (out : List String)
    (h : out.length ≤ maxS) : (collectArr maxS xs out).length ≤ maxS := by
  cases xs with
  | nil => exact h
  | cons v rest =>
    simp only [collectArr]
    by_cases hc : maxS ≤ out.length
    · rw [if_pos hc]; exact h
    · rw [if_neg hc]
      exact collectArr_le maxS rest _ (collect_strings_le maxS v out h)

end

theorem strTake_length_le (s : String) (n : Nat) : (strTake s n).length ≤ n := by
  unfold strTake
  simp only [String.length]
  rw [List.length_take]
  omega

/-- C7: harvesting collects at most 2000 strings even on pathological
inputs, the concatenated haystack is truncated to at most 200000
characters, and detection is total — it returns `none` or a value. -/
theorem claim_C7 (f : JValue) :
    (harvestStrings f).length ≤ 2000
    ∧ (build_version_haystack f).length ≤ 200000
    ∧ (detect_version f = none ∨ ∃ n, detect_version f = some n) := by
  refine ⟨?_, ?_, ?_⟩
  · unfold harvestStrings
    refine collect_strings_le 2000 f (seedStrings f) ?_
    simp only [seedStrings]
    split <;> simp
  · unfold build_version_haystack
    exact strTake_length_le _ _
  · cases h : detect_version f with
    | none => exact Or.inl rfl
    | some n => exact Or.inr ⟨n, rfl⟩

/-- C4: the harvested strings are partitioned by the case-insensitive
marker; when marker-bearing strings exist the haystack is built exclusively
from them, otherwise from the full harvest; and on the example file object
carrying `PhytozomeV13` in a nested field next to an unrelated numeric
string, detection returns 13. -/
theorem claim_C4 (f : JValue) :
    (markerStrings f ≠ [] →
      build_version_haystack f = strTake (joinSpace (markerStrings f)) 200000)
    ∧ (markerStrings f = [] →
      build_version_haystack f = strTake (joinSpace (harvestStrings f)) 200000)
    ∧ detect_version exMarker = some 13 := by
  refine ⟨?_, ?_, by decide⟩
  · intro h
    unfold markerStrings at h
    simp only [build_version_haystack]
    rw [if_neg h]
    rfl
  · intro h
    unfold markerStrings at h
    simp only [build_version_haystack]
    rw [if_pos h]

/-- C4 witness: the example file object has marker-bearing strings, so its
haystack is built from them alone. -/
theorem claim_C4_witness :
    build_version_haystack exMarker =
      strTake (joinSpace (markerStrings exMarker)) 200000 :=
  (claim_C4 exMarker).1 (by decide)

theorem row_set_selected_self (r : Row) : { r with selected := r.selected } = r := by
  cases r
  rfl

theorem foldl_max_le_self (vs : List Nat) : ∀ a, a ≤ vs.foldl Nat.max a := by
  induction vs with
  | nil => intro a; exact Nat.le_refl a
  | cons v tl ih =>
    intro a
    exact Nat.le_trans (Nat.le_max_left a v) (ih (Nat.max a v))

theorem le_foldl_max (vs : List Nat) : ∀ a x, x ∈ vs → x ≤ vs.foldl Nat.max a := by
  induction vs with
  | nil => intro a x hx; exact absurd hx (by simp)
  | cons v tl ih =>
    intro a x hx
    rcases List.mem_cons.mp hx with h | h
    · subst h
      exact Nat.le_trans (Nat.le_max_right a x) (foldl_max_le_self tl (Nat.max a x))
    · exact ih (Nat.max a v) x h

theorem foldl_max_mem (vs : List Nat) : ∀ a, vs.foldl Nat.max a = a ∨ vs.foldl Nat.max a ∈ vs := by
  induction vs with
  | nil => intro a; exact Or.inl rfl
  | cons v tl ih =>
    intro a
    rcases ih (Nat.max a v) with h | h
    · rcases Nat.le_total a v with hle | hle
      · right
        have hm : Nat.max a v = v :=
          Nat.le_antisymm (Nat.max_le.mpr ⟨hle, Nat.le_refl v⟩) (Nat.le_max_right a v)
        rw [List.foldl_cons, h, hm]
        exact List.mem_cons_self v tl
      · left
        have hm : Nat.max a v = a :=
          Nat.le_antisymm (Nat.max_le.mpr ⟨Nat.le_refl a, hle⟩) (Nat.le_max_left a v)
        rw [List.foldl_cons, h, hm]
    · right
      exact List.mem_cons_of_mem v (by rw [List.foldl_cons]; exact h)

theorem foldMax_spec (vs : List Nat) (h : vs ≠ []) :
    foldMax vs ∈ vs ∧ ∀ v ∈ vs, v ≤ foldMax vs := by
  constructor
  · rcases foldl_max_mem vs 0 with h0 | h0
    · cases vs with
      | nil => exact absurd rfl h
      | cons v tl =>
        have hv : v ≤ foldMax (v :: tl) :=
          le_foldl_max (v :: tl) 0 v (List.mem_cons_self v tl)
        have h0m : foldMax (v :: tl) = 0 := h0
        rw [h0m] at hv
        have hv0 : v = 0 := Nat.le_zero.mp hv
        rw [show foldMax (v :: tl) = v by rw [h0m, hv0]]
        exact List.mem_cons_self v tl
    · exact h0
  · intro v hv
    exact le_foldl_max vs 0 v hv

theorem mem_selVers (rows : List Row) (n : Nat) :
    n ∈ selVers rows ↔ ∃ r ∈ rows, r.selected = true ∧ r.phytozome_version = some n := by
  unfold selVers
  rw [List.mem_filterMap]
  constructor
  · rintro ⟨r, hr, he⟩
    by_cases hs : r.selected = true
    · rw [if_pos hs] at he
      exact ⟨r, hr, hs, he⟩
    · rw [if_neg hs] at he
      exact absurd he (by simp)
  · rintro ⟨r, hr, hs, he⟩
    exact ⟨r, hr, by rw [if_pos hs]; exact he⟩

/-- C1: when some selected row has a detected version, the refinement keeps
selected exactly the previously selected rows whose version equals the
maximum version among previously selected rows (rows without a version are
deselected, unselected rows are untouched); when no selected row has a
version the refinement is the identity; and the caller-visible warning
condition holds exactly in that no-effect case. -/
theorem claim_C1 (rows : List Row) :
    (selVers rows ≠ [] →
      apply_latest_only rows = rows.map (fun r =>
        { r with selected :=
            r.selected && decide (r.phytozome_version = some (foldMax (selVers rows))) }))
    ∧ (selVers rows ≠ [] →
        foldMax (selVers rows) ∈ selVers rows ∧
          ∀ v ∈ selVers rows, v ≤ foldMax (selVers rows))
    ∧ (selVers rows = [] → apply_latest_only rows = rows)
    ∧ (latestOnlyNoEffect rows = true ↔ selVers rows = []) := by
  have hmap : selVers rows ≠ [] →
      apply_latest_only rows = rows.map (fun r =>
        { r with selected :=
            r.selected && decide (r.phytozome_version = some (foldMax (selVers rows))) }) := by
    intro h
    unfold apply_latest_only
    rw [if_neg h]
    apply List.map_congr_left
    intro r _
    obtain ⟨d1, f1, n1, s1, pv, sel⟩ := r
    cases sel with
    | false => simp
    | true =>
      cases pv with
      | none => simp
      | some v =>
        by_cases hveq : v = foldMax (selVers rows)
        · subst hveq
          simp
        · simp [hveq]
  have hid : selVers rows = [] → apply_latest_only rows = rows := by
    intro h
    unfold apply_latest_only
    rw [if_pos h]
  refine ⟨hmap, ?_, hid, ?_⟩
  · intro h
    exact foldMax_spec (selVers rows) h
  · unfold latestOnlyNoEffect
    constructor
    · intro h
      by_contra hne
      rw [hmap hne] at h
      obtain ⟨hmem, -⟩ := foldMax_spec (selVers rows) hne
      obtain ⟨r, hr, hsel, hver⟩ := (mem_selVers rows (foldMax (selVers rows))).mp hmem
      have hmem2 : foldMax (selVers rows) ∈ selVers (rows.map (fun r =>
          { r with selected :=
              r.selected && decide (r.phytozome_version = some (foldMax (selVers rows))) })) := by
        refine (mem_selVers _ _).mpr ⟨_, List.mem_map_of_mem _ hr, ?_, ?_⟩
        · simp [hsel, hver]
        · simpa using hver
      rw [List.isEmpty_iff] at h
      rw [h] at hmem2
      exact absurd hmem2 (by simp)
    · intro h
      rw [hid h, h]
      rfl

/-- C1 witness: on selected rows with versions 11, 12, 13 and one selected
row without a version, only the version-13 row stays selected; on rows
without any detected version the refinement is the identity. -/
theorem claim_C1_witness :
    apply_latest_only exRows =
      [⟨"d", "f11", "a", "LIVE", some 11, false⟩,
       ⟨"d", "f12", "b", "LIVE", some 12, false⟩,
       ⟨"d", "f13", "c", "LIVE", some 13, true⟩,
       ⟨"d", "fnn", "e", "LIVE", none, false⟩]
    ∧ apply_latest_only exRowsNone = exRowsNone := by
  constructor
  · have h := (claim_C1 exRows).1 (by decide)
    rw [h]
    decide
  · exact (claim_C1 exRowsNone).2.2.1 (by decide)

theorem rebuild_foldl_append (rows : List Row) (r : Row) :
    (rows ++ [r]).foldl rebuildStep ([], []) =
      rebuildStep (rows.foldl rebuildStep ([], [])) r := by
  rw [List.foldl_append]
  rfl

theorem processFile_rebuild (incs excs : List String) (ds : String) (st : ParseState)
    (f : JValue) (h : (st.sel, st.pur) = st.rows.foldl rebuildStep ([], [])) :
    ((processFile incs excs ds st f).sel, (processFile incs excs ds st f).pur) =
      (processFile incs excs ds st f).rows.foldl rebuildStep ([], []) := by
  simp only [processFile]
  by_cases hd : jStr f ("_id") = "" ∨ jStr f ("file_name") = ""
  · rw [if_pos hd]
    exact h
  · rw [if_neg hd]
    by_cases hsel : computeSelected (jStr f ("file_name")) incs excs = true
    · rw [if_pos hsel]
      rw [show (ParseState.mk (st.rows ++ [⟨ds, jStr f ("_id"), jStr f ("file_name"),
          pyUpper (jStr f ("file_status")), detect_version f,
          computeSelected (jStr f ("file_name")) incs excs⟩])
          (mapAppend st.sel ds (jStr f ("_id")))
          (if pyUpper (jStr f ("file_status")) = "PURGED"
            then mapAppend st.pur ds (jStr f ("_id")) else st.pur)).rows
        = st.rows ++ [⟨ds, jStr f ("_id"), jStr f ("file_name"),
          pyUpper (jStr f ("file_status")), detect_version f,
          computeSelected (jStr f ("file_name")) incs excs⟩] from rfl]
      rw [rebuild_foldl_append, ← h]
      simp [rebuildStep, hsel]
    · rw [if_neg hsel]
      rw [show (ParseState.mk (st.rows ++ [⟨ds, jStr f ("_id"), jStr f ("file_name"),
          pyUpper (jStr f ("file_status")), detect_version f,
          computeSelected (jStr f ("file_name")) incs excs⟩]) st.sel st.pur).rows
        = st.rows ++ [⟨ds, jStr f ("_id"), jStr f ("file_name"),
          pyUpper (jStr f ("file_status")), detect_version f,
          computeSelected (jStr f ("file_name")) incs excs⟩] from rfl]
      rw [rebuild_foldl_append, ← h]
      simp [rebuildStep, hsel]

theorem foldl_processFile_rebuild (incs excs : List String) (ds : String) :
    ∀ (fl : List JValue) (st : ParseState),
      (st.sel, st.pur) = st.rows.foldl rebuildStep ([], []) →
      ((fl.foldl (processFile incs excs ds) st).sel,
        (fl.foldl (processFile incs excs ds) st).pur) =
        (fl.foldl (processFile incs excs ds) st).rows.foldl rebuildStep ([], []) := by
  intro fl
  induction fl with
  | nil => intro st h; exact h
  | cons f rest ih =>
    intro st h
    exact ih _ (processFile_rebuild incs excs ds st f h)

theorem processOrg_rebuild (incs excs : List String) (st : ParseState) (org : JValue)
    (h : (st.sel, st.pur) = st.rows.foldl rebuildStep ([], [])) :
    ((processOrg incs excs st org).sel, (processOrg incs excs st org).pur) =
      (processOrg incs excs st org).rows.foldl rebuildStep ([], []) := by
  simp only [processOrg]
  by_cases hd : jStr org ("id") = ""
  · rw [if_pos hd]
    exact h
  · rw [if_neg hd]
    exact foldl_processFile_rebuild incs excs _ _ st h

theorem foldl_processOrg_rebuild (incs excs : List String) :
    ∀ (orgs : List JValue) (st : ParseState),
      (st.sel, st.pur) = st.rows.foldl rebuildStep ([], []) →
      ((orgs.foldl (processOrg incs excs) st).sel,
        (orgs.foldl (processOrg incs excs) st).pur) =
        (orgs.foldl (processOrg incs excs) st).rows.foldl rebuildStep ([], []) := by
  intro orgs
  induction orgs with
  | nil => intro st h; exact h
  | cons org rest ih =>
    intro st h
    exact ih _ (processOrg_rebuild incs excs st org h)

/-- C6: the selected-ids and selected-purged maps returned by the parser
coincide with the maps rebuilt from scratch from the manifest rows it
produced — the incremental construction and the rebuild are equivalent
functions of the manifest. -/
theorem claim_C6 (sj : JValue) (incs excs : List String) :
    rebuild_selected_maps (parse_search sj incs excs).1 =
      ((parse_search sj incs excs).2.1, (parse_search sj incs excs).2.2) := by
  have h := foldl_processOrg_rebuild incs excs (jArr sj ("organisms")) emptyState rfl
  simp only [parse_search, rebuild_selected_maps]
  rw [← h]

theorem processFile_nonempty (incs excs : List String) (ds : String) (st : ParseState)
    (f : JValue)
    (h : (∀ r ∈ st.rows, r.file_id ≠ "" ∧ r.file_name ≠ "")
      ∧ (∀ p ∈ st.sel, ∀ v ∈ p.2, v ≠ "")
      ∧ (∀ p ∈ st.pur, ∀ v ∈ p.2, v ≠ "")) :
    (∀ r ∈ (processFile incs excs ds st f).rows, r.file_id ≠ "" ∧ r.file_name ≠ "")
    ∧ (∀ p ∈ (processFile incs excs ds st f).sel, ∀ v ∈ p.2, v ≠ "")
    ∧ (∀ p ∈ (processFile incs excs ds st f).pur, ∀ v ∈ p.2, v ≠ "") := by
  obtain ⟨h1, h2, h3⟩ := h
  simp only [processFile]
  by_cases hd : jStr f ("_id") = "" ∨ jStr f ("file_name") = ""
  · rw [if_pos hd]
    exact ⟨h1, h2, h3⟩
  · rw [if_neg hd]
    push_neg at hd
    obtain ⟨hfid, hfname⟩ := hd
    have hrows : ∀ r ∈ st.rows ++ [(⟨ds, jStr f ("_id"), jStr f ("file_name"),
        pyUpper (jStr f ("file_status")), detect_version f,
        computeSelected (jStr f ("file_name")) incs excs⟩ : Row)],
        r.file_id ≠ "" ∧ r.file_name ≠ "" := by
      intro r hr
      rcases List.mem_append.mp hr with hm | hm
      · exact h1 r hm
      · rcases List.mem_singleton.mp hm with rfl
        exact ⟨hfid, hfname⟩
    by_cases hsel : computeSelected (jStr f ("file_name")) incs excs = true
    · rw [if_pos hsel]
      refine ⟨hrows, ?_, ?_⟩
      · intro p hp v hv
        rcases mapAppend_vals ds (jStr f ("_id")) st.sel p v hp hv with hm | ⟨q, hq1, hq2⟩
        · rw [hm]; exact hfid
        · exact h2 q hq1 v hq2
      · intro p hp v hv
        by_cases hst : pyUpper (jStr f ("file_status")) = "PURGED"
        · rw [if_pos hst] at hp
          rcases mapAppend_vals ds (jStr f ("_id")) st.pur p v hp hv with hm | ⟨q, hq1, hq2⟩
          · rw [hm]; exact hfid
          · exact h3 q hq1 v hq2
        · rw [if_neg hst] at hp
          exact h3 p hp v hv
    · rw [if_neg hsel]
      exact ⟨hrows, h2, h3⟩

theorem foldl_processFile_nonempty (incs excs : List String) (ds : String) :
    ∀ (fl : List JValue) (st : ParseState),
      ((∀ r ∈ st.rows, r.file_id ≠ "" ∧ r.file_name ≠ "")
        ∧ (∀ p ∈ st.sel, ∀ v ∈ p.2, v ≠ "")
        ∧ (∀ p ∈ st.pur, ∀ v ∈ p.2, v ≠ "")) →
      ((∀ r ∈ (fl.foldl (processFile incs excs ds) st).rows,
          r.file_id ≠ "" ∧ r.file_name ≠ "")
        ∧ (∀ p ∈ (fl.foldl (processFile incs excs ds) st).sel, ∀ v ∈ p.2, v ≠ "")
        ∧ (∀ p ∈ (fl.foldl (processFile incs excs ds) st).pur, ∀ v ∈ p.2, v ≠ "")) := by
  intro fl
  induction fl with
  | nil => intro st h; exact h
  | cons f rest ih =>
    intro st h
    exact ih _ (processFile_nonempty incs excs ds st f h)

theorem processOrg_nonempty (incs excs : List String) (st : ParseState) (org : JValue)
    (h : (∀ r ∈ st.rows, r.file_id ≠ "" ∧ r.file_name ≠ "")
      ∧ (∀ p ∈ st.sel, ∀ v ∈ p.2, v ≠ "")
      ∧ (∀ p ∈ st.pur, ∀ v ∈ p.2, v ≠ "")) :
    (∀ r ∈ (processOrg incs excs st org).rows, r.file_id ≠ "" ∧ r.file_name ≠ "")
    ∧ (∀ p ∈ (processOrg incs excs st org).sel, ∀ v ∈ p.2, v ≠ "")
    ∧ (∀ p ∈ (processOrg incs excs st org).pur, ∀ v ∈ p.2, v ≠ "") := by
  simp only [processOrg]
  by_cases hd : jStr org ("id") = ""
  · rw [if_pos hd]
    exact h
  · rw [if_neg hd]
    exact foldl_processFile_nonempty incs excs _ _ st h

theorem foldl_processOrg_nonempty (incs excs : List String) :
    ∀ (orgs : List JValue) (st : ParseState),
      ((∀ r ∈ st.rows, r.file_id ≠ "" ∧ r.file_name ≠ "")
        ∧ (∀ p ∈ st.sel, ∀ v ∈ p.2, v ≠ "")
        ∧ (∀ p ∈ st.pur, ∀ v ∈ p.2, v ≠ "")) →
      ((∀ r ∈ (orgs.foldl (processOrg incs excs) st).rows,
          r.file_id ≠ "" ∧ r.file_name ≠ "")
        ∧ (∀ p ∈ (orgs.foldl (processOrg incs excs) st).sel, ∀ v ∈ p.2, v ≠ "")
        ∧ (∀ p ∈ (orgs.foldl (processOrg incs excs) st).pur, ∀ v ∈ p.2, v ≠ "")) := by
  intro orgs
  induction orgs with
  | nil => intro st h; exact h
  | cons org rest ih =>
    intro st h
    exact ih _ (processOrg_nonempty incs excs st org h)

theorem dedupMap_vals (m : SMap) (p : String × List String) (hp : p ∈ dedupMap m) :
    ∃ q ∈ m, p.2 = dedup q.2 := by
  unfold dedupMap at hp
  rcases List.mem_map.mp hp with ⟨q, hq, he⟩
  exact ⟨q, hq, by rw [← he]⟩

/-- C8: a file entry with an empty (or missing) identifier or name produces
no manifest row and no selection-map entry; every row the parser produces
has a non-empty `file_id` and `file_name`, and every identifier recorded in
either selection map is non-empty. -/
theorem claim_C8 (sj : JValue) (incs excs : List String) :
    (∀ r ∈ (parse_search sj incs excs).1, r.file_id ≠ "" ∧ r.file_name ≠ "")
    ∧ (∀ p ∈ (parse_search sj incs excs).2.1, ∀ v ∈ p.2, v ≠ "")
    ∧ (∀ p ∈ (parse_search sj incs excs).2.2, ∀ v ∈ p.2, v ≠ "")
    ∧ (∀ (ds : String) (st : ParseState) (f : JValue),
        jStr f ("_id") = "" ∨ jStr f ("file_name") = "" →
        processFile incs excs ds st f = st) := by
  have h := foldl_processOrg_nonempty incs excs (jArr sj ("organisms")) emptyState
    (by refine ⟨?_, ?_, ?_⟩ <;> intro p hp <;> exact absurd hp (by simp [emptyState]))
  obtain ⟨h1, h2, h3⟩ := h
  refine ⟨h1, ?_, ?_, ?_⟩
  · intro p hp v hv
    obtain ⟨q, hq, he⟩ := dedupMap_vals _ p hp
    rw [he] at hv
    exact h2 q hq v ((mem_dedup q.2 v).mp hv)
  · intro p hp v hv
    obtain ⟨q, hq, he⟩ := dedupMap_vals _ p hp
    rw [he] at hv
    exact h3 q hq v ((mem_dedup q.2 v).mp hv)
  · intro ds st f hd
    simp only [processFile]
    rw [if_pos hd]

/-- C8 witness: a file entry without an `_id` field leaves the parse state
untouched — no row and no map entry. -/
theorem claim_C8_witness :
    processFile [] [] ("d") emptyState exDropF = emptyState :=
  (claim_C8 JValue.null [] []).2.2.2 ("d") emptyState exDropF (Or.inl (by decide))

/-- C10: the parser records `file_status` upper-cased (a missing status
becomes the empty string and stays empty), purged classification is
case-insensitive in the raw status, and the rebuild's comparison of the
stored status against the literal `PURGED` agrees with the parser's
classification. -/
theorem claim_C10 (incs excs : List String) (ds : String) (f : JValue) (st : ParseState)
    (hfid : jStr f ("_id") ≠ "") (hfname : jStr f ("file_name") ≠ "") :
    ∃ row : Row,
      (processFile incs excs ds st f).rows = st.rows ++ [row]
      ∧ row.dataset_id = ds
      ∧ row.file_id = jStr f ("_id")
      ∧ row.selected = computeSelected (jStr f ("file_name")) incs excs
      ∧ row.file_status = pyUpper (jStr f ("file_status"))
      ∧ (row.file_status = ("PURGED") ↔ pyUpper (jStr f ("file_status")) = ("PURGED"))
      ∧ ((processFile incs excs ds st f).pur =
          if row.selected = true ∧ row.file_status = ("PURGED")
          then mapAppend st.pur ds row.file_id else st.pur)
      ∧ (∀ mp : SMap × SMap, (rebuildStep mp row).2 =
          if row.selected = true ∧ pyUpper (jStr f ("file_status")) = ("PURGED")
          then mapAppend mp.2 row.dataset_id row.file_id else mp.2) := by
  have hd : ¬(jStr f ("_id") = "" ∨ jStr f ("file_name") = "") := by
    push_neg
    exact ⟨hfid, hfname⟩
  refine ⟨⟨ds, jStr f ("_id"), jStr f ("file_name"), pyUpper (jStr f ("file_status")),
    detect_version f, computeSelected (jStr f ("file_name")) incs excs⟩,
    ?_, rfl, rfl, rfl, rfl, Iff.rfl, ?_, ?_⟩
  · simp only [processFile]
    rw [if_neg hd]
    by_cases hsel : computeSelected (jStr f ("file_name")) incs excs = true
    · rw [if_pos hsel]
    · rw [if_neg hsel]
  · simp only [processFile]
    rw [if_neg hd]
    by_cases hsel : computeSelected (jStr f ("file_name")) incs excs = true
    · rw [if_pos hsel]
      by_cases hst : pyUpper (jStr f ("file_status")) = ("PURGED")
      · rw [if_pos hst, if_pos (by exact ⟨hsel, hst⟩)]
      · rw [if_neg hst, if_neg (by rintro ⟨-, hc⟩; exact hst hc)]
    · rw [if_neg hsel, if_neg (by rintro ⟨hc, -⟩; exact hsel hc)]
  · intro mp
    by_cases hsel : computeSelected (jStr f ("file_name")) incs excs = true
    · by_cases hst : pyUpper (jStr f ("file_status")) = ("PURGED")
      · rw [if_pos (by exact ⟨hsel, hst⟩)]
        simp [rebuildStep, hsel, hst]
      · rw [if_neg (by rintro ⟨-, hc⟩; exact hst hc)]
        simp [rebuildStep, hsel, hst]
    · rw [if_neg (by rintro ⟨hc, -⟩; exact hsel hc)]
      simp [rebuildStep, hsel]

/-- C10 witness: a file whose raw status is the mixed-case `Purged` is
selected with no globs configured and lands in the purged selection map
under the normalised status. -/
theorem claim_C10_witness :
    (processFile [] [] ("d") emptyState exC10F).pur = [(("d"), [("f1")])] := by
  obtain ⟨row, h1, h2, h3, h4, h5, h6, h7, h8⟩ :=
    claim_C10 [] [] ("d") exC10F emptyState (by decide) (by decide)
  rw [h7, if_pos ?side, h3]
  case side =>
    constructor
    · rw [h4]; decide
    · rw [h5]; decide
  decide

theorem pollRestore_ready (statusAt : Nat → String) (pollS maxW : Nat) :
    ∀ (k fuel i waited : Nat),
      (∀ j, j < k → pyUpper (statusAt (i + j)) ≠ ("READY") ∧
        pyUpper (statusAt (i + j)) ≠ ("EXPIRED")) →
      pyUpper (statusAt (i + k)) = ("READY") →
      waited + k * pollS < maxW →
      k + 1 ≤ fuel →
      pollRestore statusAt pollS maxW fuel i waited =
        some (RestoreOutcome.ready, i + k + 1, waited + k * pollS) := by
  intro k
  induction k with
  | zero =>
    intro fuel i waited hpre hready hbudget hfuel
    cases fuel with
    | zero => omega
    | succ fl =>
      simp only [pollRestore]
      rw [Nat.add_zero] at hready
      rw [hready, if_pos rfl]
      simp
  | succ k ih =>
    intro fuel i waited hpre hready hbudget hfuel
    cases fuel with
    | zero => omega
    | succ fl =>
      simp only [pollRestore]
      obtain ⟨hn1, hn2⟩ := hpre 0 (Nat.succ_pos k)
      rw [Nat.add_zero] at hn1 hn2
      rw [if_neg hn1, if_neg hn2,
        if_neg (by rw [Nat.succ_mul] at hbudget; omega)]
      have h1 : ∀ j, j < k → pyUpper (statusAt (i + 1 + j)) ≠ ("READY") ∧
          pyUpper (statusAt (i + 1 + j)) ≠ ("EXPIRED") := by
        intro j hj
        have h := hpre (j + 1) (by omega)
        rwa [show i + (j + 1) = i + 1 + j by omega] at h
      have h2 : pyUpper (statusAt (i + 1 + k)) = ("READY") := by
        rwa [show i + 1 + k = i + (k + 1) by omega]
      have h3 : waited + pollS + k * pollS < maxW := by
        rw [Nat.succ_mul] at hbudget
        omega
      rw [ih fl (i + 1) (waited + pollS) h1 h2 h3 (by omega)]
      simp only [Option.some.injEq, Prod.mk.injEq]
      refine ⟨trivial, by omega, ?_⟩
      rw [Nat.succ_mul]
      omega

theorem pollRestore_expired (statusAt : Nat → String) (pollS maxW : Nat) :
    ∀ (k fuel i waited : Nat),
      (∀ j, j < k → pyUpper (statusAt (i + j)) ≠ ("READY") ∧
        pyUpper (statusAt (i + j)) ≠ ("EXPIRED")) →
      pyUpper (statusAt (i + k)) = ("EXPIRED") →
      waited + k * pollS < maxW →
      k + 1 ≤ fuel →
      pollRestore statusAt pollS maxW fuel i waited =
        some (RestoreOutcome.expired, i + k + 1, waited + k * pollS) := by
  intro k
  induction k with
  | zero =>
    intro fuel i waited hpre hexp hbudget hfuel
    cases fuel with
    | zero => omega
    | succ fl =>
      simp only [pollRestore]
      rw [Nat.add_zero] at hexp
      rw [hexp]
      rw [if_neg (by decide), if_pos rfl]
      simp
  | succ k ih =>
    intro fuel i waited hpre hexp hbudget hfuel
    cases fuel with
    | zero => omega
    | succ fl =>
      simp only [pollRestore]
      obtain ⟨hn1, hn2⟩ := hpre 0 (Nat.succ_pos k)
      rw [Nat.add_zero] at hn1 hn2
      rw [if_neg hn1, if_neg hn2,
        if_neg (by rw [Nat.succ_mul] at hbudget; omega)]
      have h1 : ∀ j, j < k → pyUpper (statusAt (i + 1 + j)) ≠ ("READY") ∧
          pyUpper (statusAt (i + 1 + j)) ≠ ("EXPIRED") := by
        intro j hj
        have h := hpre (j + 1) (by omega)
        rwa [show i + (j + 1) = i + 1 + j by omega] at h
      have h2 : pyUpper (statusAt (i + 1 + k)) = ("EXPIRED") := by
        rwa [show i + 1 + k = i + (k + 1) by omega]
      have h3 : waited + pollS + k * pollS < maxW := by
        rw [Nat.succ_mul] at hbudget
        omega
      rw [ih fl (i + 1) (waited + pollS) h1 h2 h3 (by omega)]
      simp only [Option.some.injEq, Prod.mk.injEq]
      refine ⟨trivial, by omega, ?_⟩
      rw [Nat.succ_mul]
      omega

theorem pollRestore_timeout (statusAt : Nat → String) (pollS maxW : Nat) :
    ∀ (fuel i waited : Nat),
      (∀ j, pyUpper (statusAt j) ≠ ("READY") ∧ pyUpper (statusAt j) ≠ ("EXPIRED")) →
      waited < maxW →
      maxW ≤ waited + fuel * pollS →
      ∃ k w, pollRestore statusAt pollS maxW fuel i waited =
          some (RestoreOutcome.timedOut, k, w) ∧ maxW ≤ w ∧ w < maxW + pollS := by
  intro fuel
  induction fuel with
  | zero => intro i waited hn hw hb; omega
  | succ fl ih =>
    intro i waited hn hw hb
    simp only [pollRestore]
    obtain ⟨hn1, hn2⟩ := hn i
    rw [if_neg hn1, if_neg hn2]
    by_cases hto : maxW ≤ waited + pollS
    · rw [if_pos hto]
      exact ⟨i + 1, waited + pollS, rfl, hto, by omega⟩
    · rw [if_neg hto]
      refine ih (i + 1) (waited + pollS) hn (by omega) ?_
      rw [Nat.succ_mul] at hb
      omega

/-- C2: the restore poll loop (1) on the status sequence PENDING, PENDING,
READY with a wait budget exceeding two poll intervals succeeds after
exactly two poll intervals (three polls); (2) terminates immediately with
the expired failure at the first poll returning EXPIRED, with no further
polls; (3) times out when the accumulated wait reaches the configured
maximum before any terminal status is observed. -/
theorem claim_C2 (pollS maxW fuel : Nat) :
    (∀ statusAt : Nat → String,
      (∀ i, statusAt i = if i < 2 then ("PENDING") else ("READY")) →
      2 * pollS < maxW → 3 ≤ fuel →
      ensure_restored_poll statusAt pollS maxW fuel =
        some (RestoreOutcome.ready, 3, 2 * pollS))
    ∧ (∀ (statusAt : Nat → String) (k : Nat),
      (∀ j, j < k → pyUpper (statusAt j) ≠ ("READY") ∧
        pyUpper (statusAt j) ≠ ("EXPIRED")) →
      pyUpper (statusAt k) = ("EXPIRED") → k * pollS < maxW → k + 1 ≤ fuel →
      ensure_restored_poll statusAt pollS maxW fuel =
        some (RestoreOutcome.expired, k + 1, k * pollS))
    ∧ (∀ statusAt : Nat → String,
      (∀ j, pyUpper (statusAt j) ≠ ("READY") ∧ pyUpper (statusAt j) ≠ ("EXPIRED")) →
      1 ≤ pollS → 1 ≤ maxW → maxW ≤ fuel →
      ∃ k w, ensure_restored_poll statusAt pollS maxW fuel =
          some (RestoreOutcome.timedOut, k, w) ∧ maxW ≤ w ∧ w < maxW + pollS) := by
  refine ⟨?_, ?_, ?_⟩
  · intro statusAt hseq hbudget hfuel
    have hpre : ∀ j, j < 2 → pyUpper (statusAt (0 + j)) ≠ ("READY") ∧
        pyUpper (statusAt (0 + j)) ≠ ("EXPIRED") := by
      intro j hj
      rw [hseq (0 + j), if_pos (by omega)]
      exact ⟨by decide, by decide⟩
    have hrdy : pyUpper (statusAt (0 + 2)) = ("READY") := by
      rw [hseq (0 + 2), if_neg (by omega)]
      decide
    have h := pollRestore_ready statusAt pollS maxW 2 fuel 0 0 hpre hrdy (by omega) hfuel
    unfold ensure_restored_poll
    rw [h]
    simp
  · intro statusAt k hpre hexp hbudget hfuel
    have hpre2 : ∀ j, j < k → pyUpper (statusAt (0 + j)) ≠ ("READY") ∧
        pyUpper (statusAt (0 + j)) ≠ ("EXPIRED") := by
      intro j hj
      rw [Nat.zero_add]
      exact hpre j hj
    have hexp2 : pyUpper (statusAt (0 + k)) = ("EXPIRED") := by
      rw [Nat.zero_add]
      exact hexp
    have h := pollRestore_expired statusAt pollS maxW k fuel 0 0 hpre2 hexp2 (by omega) hfuel
    unfold ensure_restored_poll
    rw [h]
    simp
  · intro statusAt hn h1 h2 h3
    have hm : fuel * 1 ≤ fuel * pollS := Nat.mul_le_mul_left fuel h1
    rw [Nat.mul_one] at hm
    exact pollRestore_timeout statusAt pollS maxW fuel 0 0 hn (by omega) (by omega)

/-- C2 witness: with a 5 second poll and a 60 second budget the modelled
loop succeeds after two intervals on PENDING, PENDING, READY; fails at the
second poll when the second status is the mixed-case `Expired`; and a
never-terminal sequence produces a (timed-out) result. -/
theorem claim_C2_witness :
    ensure_restored_poll exStatusA 5 60 61 = some (RestoreOutcome.ready, 3, 2 * 5)
    ∧ ensure_restored_poll exStatusB 5 60 61 = some (RestoreOutcome.expired, 1 + 1, 1 * 5)
    ∧ (ensure_restored_poll exStatusC 5 60 61).isSome = true := by
  refine ⟨?_, ?_, ?_⟩
  · exact (claim_C2 5 60 61).1 exStatusA (fun i => rfl) (by decide) (by decide)
  · exact (claim_C2 5 60 61).2.1 exStatusB 1
      (by
        intro j hj
        have hj0 : j = 0 := by omega
        subst hj0
        exact ⟨by decide, by decide⟩)
      (by decide) (by decide) (by decide)
  · obtain ⟨k, w, he, -, -⟩ := (claim_C2 5 60 61).2.2 exStatusC
      (by
        intro j
        rw [show exStatusC j = ("pending") from rfl]
        exact ⟨by decide, by decide⟩)
      (by decide) (by decide) (by decide)
    rw [he]
    rfl
